import Mathlib

/-!
# Account addresses and raw-transaction signing bytes of the aptos-go-sdk corpus

A shallow embedding of the address codec, address derivation, canonical
(BCS-style) encoder and raw-transaction builder described by the corpus
specification, together with proofs of the claims about them.

Addresses are 32-byte values, modelled as `List Nat` of length 32 with every
element below 256.  Text is modelled as `List Char`.  Fallible operations
return `Option`; the concrete error kinds (`InvalidFormat`, `TruncatedInput`,
`TrailingBytes`) are all collapsed to `none`, which is faithful to the
distinctions the claims draw (success versus failure).

The repository ships only the test suite and callers of these operations; the
implementation files themselves are not part of the corpus.  Each operation is
therefore modelled from the specification, as flagged in its doc comment.
-/

namespace Aptos

/-! ## Hexadecimal characters and byte rendering -/

/-- Is `c` a hexadecimal digit (either case)? -/
def isHexDigit (c : Char) : Bool :=
  (48 ≤ c.toNat && c.toNat ≤ 57) ||
  (97 ≤ c.toNat && c.toNat ≤ 102) ||
  (65 ≤ c.toNat && c.toNat ≤ 70)

/-- Is `c` a lowercase hexadecimal digit? -/
def isLowerHexDigit (c : Char) : Bool :=
  (48 ≤ c.toNat && c.toNat ≤ 57) || (97 ≤ c.toNat && c.toNat ≤ 102)

/-- Numeric value of a hexadecimal digit character (0 on non-digits). -/
def hexVal (c : Char) : Nat :=
  if 48 ≤ c.toNat && c.toNat ≤ 57 then c.toNat - 48
  else if 97 ≤ c.toNat && c.toNat ≤ 102 then c.toNat - 97 + 10
  else if 65 ≤ c.toNat && c.toNat ≤ 70 then c.toNat - 65 + 10
  else 0

/-- The lowercase hexadecimal digit character for a value below 16. -/
def hexDigitChar (n : Nat) : Char :=
  if n < 10 then Char.ofNat (48 + n) else Char.ofNat (97 + (n - 10))

/-- Render a list of bytes as lowercase hexadecimal, two digits per byte. -/
def bytesToHexChars : List Nat → List Char
  | [] => []
  | b :: rest => hexDigitChar (b / 16) :: hexDigitChar (b % 16) :: bytesToHexChars rest

/-- Decode pairs of hexadecimal digit characters into bytes (big-endian within
each pair); an odd trailing character is ignored. -/
def hexCharsToBytes : List Char → List Nat
  | [] => []
  | [_] => []
  | a :: b :: rest => (16 * hexVal a + hexVal b) :: hexCharsToBytes rest

/-- Minimal lowercase hexadecimal rendering of a byte: one digit when the
value is below 16, two digits otherwise (no leading zero). -/
def byteToHexMinimal (b : Nat) : List Char :=
  if b < 16 then [hexDigitChar b]
  else [hexDigitChar (b / 16), hexDigitChar (b % 16)]

/-- Big-endian numeric value of a byte list. -/
def bytesToNatBE (b : List Nat) : Nat :=
  b.foldl (fun acc x => 256 * acc + x) 0

/-- Big-endian numeric value of a hexadecimal digit list. -/
def hexToNatBE (d : List Char) : Nat :=
  d.foldl (fun acc c => 16 * acc + hexVal c) 0

/-! ## The address codec, modelled from the spec -/

/-- Modelled from the spec: strip an optional `0x` / `0X` prefix from address
text (`parseRelaxed`, §4.1). -/
def stripHexPfx (t : List Char) : List Char :=
  match t with
  | '0' :: 'x' :: rest => rest
  | '0' :: 'X' :: rest => rest
  | _ => t

/-- Modelled from the spec (§4.1, `parseRelaxed`): the implementation file is
not part of the corpus, only its tests.  Strips an optional `0x`/`0X` prefix;
the remaining digit string must be nonempty, at most 64 characters, and all
hexadecimal; it is left-padded with `0` characters to 64 digits and decoded
into 32 bytes.  Failure (`InvalidFormat`) is `none`. -/
def parseRelaxed (t : List Char) : Option (List Nat) :=
  if (stripHexPfx t).isEmpty then none
  else if 64 < (stripHexPfx t).length then none
  else if (stripHexPfx t).all isHexDigit then
    some (hexCharsToBytes
      (List.replicate (64 - (stripHexPfx t).length) '0' ++ stripHexPfx t))
  else none

/-- Modelled from the spec (§4.1): an address is special iff its first 31
bytes are all zero and its last byte is below 16. -/
def isSpecial (a : List Nat) : Bool :=
  (a.take 31).all (fun b => b == 0) && decide (a.getD 31 0 < 16)

/-- Modelled from the spec (§4.1, `toLongString` / Go `StringLong`): `0x`
followed by all 32 bytes as exactly 64 lowercase hexadecimal digits. -/
def toLongString (a : List Nat) : List Char :=
  '0' :: 'x' :: bytesToHexChars a

/-- Modelled from the spec (§4.1, `toShortString` / Go `String`): for a
special address, `0x` followed by the last byte in minimal lowercase
hexadecimal; otherwise identical to `toLongString`. -/
def toShortString (a : List Nat) : List Char :=
  if isSpecial a then '0' :: 'x' :: byteToHexMinimal (a.getD 31 0)
  else toLongString a

/-- The all-zero reserved address. -/
def AccountZero : List Nat := List.replicate 32 0

/-- The reserved address `0x1`. -/
def AccountOne : List Nat := List.replicate 31 0 ++ [1]

/-- The reserved address `0x2`. -/
def AccountTwo : List Nat := List.replicate 31 0 ++ [2]

/-- The reserved address `0x3`. -/
def AccountThree : List Nat := List.replicate 31 0 ++ [3]

/-- The reserved address `0x4`. -/
def AccountFour : List Nat := List.replicate 31 0 ++ [4]

/-! ## Binary canonical form of an address, modelled from the spec -/

/-- Modelled from the spec (§4.1, §4.3): the binary canonical form of an
address is exactly its 32 raw bytes, with no length prefix. -/
def bcsSerialize (a : List Nat) : List Nat := a

/-- Modelled from the spec (§4.3): decoding a single top-level address value
consumes exactly 32 bytes and rejects truncated input (`TruncatedInput`) and
trailing unconsumed bytes (`TrailingBytes`), both collapsed to `none`. -/
def bcsDeserialize (b : List Nat) : Option (List Nat) :=
  if b.length = 32 then some b else none

/-! ## Address derivation, modelled from the spec -/

/-- Modelled from the spec (§4.2, `fromAuthenticationKey` / Go `FromAuthKey`):
the address equals the raw bytes of the 32-byte authentication key. -/
def fromAuthenticationKey (key : List Nat) : List Nat := key

/-- Modelled from the spec (§4.2, `objectAddressFromObject` / Go
`ObjectAddressFromObject`): the derived address is
`hash (owner ++ object ++ [tag])`.  The 256-bit cryptographic digest and the
single-byte derivation-scheme tag are network-supplied protocol constants
external to this code, so they are parameters here. -/
def objectAddressFromObject (hash : List Nat → List Nat) (tag : Nat)
    (owner object : List Nat) : List Nat :=
  hash (owner ++ object ++ [tag])

/-! ## The canonical encoder, modelled from the spec -/

/-- LEB128-style variable-length encoding of an unsigned count or length. -/
def uleb128 (n : Nat) : List Nat :=
  if h : n < 128 then [n] else (n % 128 + 128) :: uleb128 (n / 128)
termination_by n
decreasing_by exact Nat.div_lt_self (by omega) (by omega)

/-- Fixed-width little-endian encoding of an unsigned 64-bit integer. -/
def u64LE (n : Nat) : List Nat :=
  [n % 256, n / 256 % 256, n / 256 ^ 2 % 256, n / 256 ^ 3 % 256,
   n / 256 ^ 4 % 256, n / 256 ^ 5 % 256, n / 256 ^ 6 % 256, n / 256 ^ 7 % 256]

/-- A byte string encoded as its LEB128 length followed by its bytes. -/
def encodeBytes (b : List Nat) : List Nat :=
  uleb128 b.length ++ b

/-- A sequence of byte strings encoded as a LEB128 count followed by each
element's own length-prefixed bytes. -/
def encodeBytesSeq (l : List (List Nat)) : List Nat :=
  uleb128 l.length ++ l.flatMap encodeBytes

/-- A sequence of already-encoded elements (such as type tags) encoded as a
LEB128 count followed by the elements' bytes. -/
def encodeRawSeq (l : List (List Nat)) : List Nat :=
  uleb128 l.length ++ l.flatMap (fun x => x)

/-! ## The raw transaction, modelled from the spec -/

/-- The entry-function payload: declaring module (address and name), function
name, type-tag list (already encoded, empty in scope) and the list of
already-BCS-encoded argument byte strings (§3, `EntryFunctionPayload`). -/
structure EntryFunction where
  moduleAddress : List Nat
  moduleName : List Nat
  functionName : List Nat
  argTypes : List (List Nat)
  args : List (List Nat)

/-- A raw transaction envelope (§3, `RawTransaction`): sender, sequence
number, entry-function payload, gas parameters, expiration, chain id. -/
structure RawTransaction where
  sender : List Nat
  sequenceNumber : Nat
  payload : EntryFunction
  maxGasAmount : Nat
  gasUnitPrice : Nat
  expirationTimestampSeconds : Nat
  chainId : Nat

/-- Modelled from the spec (§4.4): the canonical encoding of the
entry-function payload, in order: module address (32 raw bytes), module name
(length-prefixed bytes), function name (length-prefixed bytes), type-tag list
(count-prefixed sequence) and argument list (count-prefixed sequence of
length-prefixed byte strings). -/
def encodeEntryFunction (ef : EntryFunction) : List Nat :=
  ef.moduleAddress ++ encodeBytes ef.moduleName ++ encodeBytes ef.functionName
    ++ encodeRawSeq ef.argTypes ++ encodeBytesSeq ef.args

/-- Modelled from the spec (§4.4): the canonical encoding of a raw
transaction, in order: sender address (32 raw bytes), sequence number (u64
little-endian), payload, max gas amount (u64 LE), gas unit price (u64 LE),
expiration timestamp (u64 LE) and chain id (one byte). -/
def encodeRawTransaction (txn : RawTransaction) : List Nat :=
  txn.sender ++ u64LE txn.sequenceNumber ++ encodeEntryFunction txn.payload
    ++ u64LE txn.maxGasAmount ++ u64LE txn.gasUnitPrice
    ++ u64LE txn.expirationTimestampSeconds ++ [txn.chainId % 256]

/-- Modelled from the spec (§4.4, `signableBytes` / Go `SignableBytes`): the
fixed 32-byte domain-separation prefix (the digest of the constant
raw-transaction protocol string, a network constant computed externally and
passed in here) followed by the canonical encoding of the transaction. -/
def signableBytes (domainPfx : List Nat) (txn : RawTransaction) : List Nat :=
  domainPfx ++ encodeRawTransaction txn

/-- ASCII bytes of a text, for module and function names. -/
def asciiBytes (s : List Char) : List Nat := s.map Char.toNat

/-- The transfer transaction assembled by the `send` action of the CLI
client (`cmd/goclient/goclient.go`): `0x1::aptos_account::transfer` with a
32-byte destination address and a little-endian u64 amount as the two
pre-encoded arguments, max gas 1000, gas unit price 2000, chain id 4. -/
def goclientSendTxn : RawTransaction where
  sender := AccountTwo
  sequenceNumber := 1
  payload :=
    { moduleAddress := AccountOne
      moduleName := asciiBytes "aptos_account".data
      functionName := asciiBytes "transfer".data
      argTypes := []
      args := [AccountThree, u64LE 42] }
  maxGasAmount := 1000
  gasUnitPrice := 2000
  expirationTimestampSeconds := 1720000100
  chainId := 4

/-- A stand-in 32-byte domain-separation prefix for concrete evaluation (the
real value is the digest of the raw-transaction protocol string, a network
constant external to this code). -/
def rawTxnPfx : List Nat := List.replicate 32 181

/-! ## JSON text form of an address, modelled from the spec -/

/-- The double-quote character delimiting a JSON string value. -/
def quoteChar : Char := Char.ofNat 34

/-- Modelled from the spec (§4.1, §6): JSON encoding of an address produces
the `toShortString` text inside a JSON string value. -/
def jsonMarshal (a : List Nat) : List Char :=
  quoteChar :: (toShortString a ++ [quoteChar])

/-- Modelled from the spec (§4.1, §6): JSON decoding of an address strips the
JSON string quotes and parses the contained text with `parseRelaxed`. -/
def jsonUnmarshal (s : List Char) : Option (List Nat) :=
  match s with
  | c :: rest =>
    if c == quoteChar && rest.getLast? == some quoteChar then
      parseRelaxed rest.dropLast
    else none
  | _ => none

/-! ## The mutating parse, modelled from the spec -/

/-- Modelled from the spec (§4.1): the Go method `ParseStringRelaxed` writes
through its receiver; on success the receiver holds the parsed address, which
the spec defines as a function of the text alone, and on failure the receiver
is unchanged.  The state transition of the receiver. -/
def parseStringRelaxedInto (receiver : List Nat) (t : List Char) : List Nat :=
  (parseRelaxed t).getD receiver

/-- Reusing one address variable to parse a sequence of texts: the receiver
state after folding the mutating parse over the texts. -/
def foldParses (init : List Nat) (ts : List (List Char)) : List Nat :=
  ts.foldl parseStringRelaxedInto init

/-! ## Lemmas about hexadecimal digits -/

/-- The value assigned to any character is below 16. -/
theorem hexVal_lt (c : Char) : hexVal c < 16 := by
  unfold hexVal
  split
  · next h1 =>
    simp only [Bool.and_eq_true, decide_eq_true_eq] at h1
    omega
  split
  · next h2 =>
    simp only [Bool.and_eq_true, decide_eq_true_eq] at h2
    omega
  split
  · next h3 =>
    simp only [Bool.and_eq_true, decide_eq_true_eq] at h3
    omega
  · omega

/-- `hexDigitChar` produces a lowercase hexadecimal digit. -/
theorem isLowerHexDigit_hexDigitChar (n : Nat) (h : n < 16) :
    isLowerHexDigit (hexDigitChar n) = true := by
  interval_cases n <;> decide

/-- Every lowercase hexadecimal digit is a hexadecimal digit. -/
theorem isHexDigit_of_isLowerHexDigit (c : Char) (h : isLowerHexDigit c = true) :
    isHexDigit c = true := by
  simp only [isLowerHexDigit, Bool.or_eq_true, Bool.and_eq_true,
    decide_eq_true_eq] at h
  simp only [isHexDigit, Bool.or_eq_true, Bool.and_eq_true, decide_eq_true_eq]
  omega

/-- `hexVal` inverts `hexDigitChar` on values below 16. -/
theorem hexVal_hexDigitChar (n : Nat) (h : n < 16) :
    hexVal (hexDigitChar n) = n := by
  interval_cases n <;> decide

/-! ## Lemmas about byte/hex conversions -/

/-- Rendering bytes yields two characters per byte. -/
theorem bytesToHexChars_length (a : List Nat) :
    (bytesToHexChars a).length = 2 * a.length := by
  induction a with
  | nil => rfl
  | cons b rest ih => simp [bytesToHexChars, ih]; omega

/-- Decoding hexadecimal characters yields one byte per two characters. -/
theorem hexCharsToBytes_length (l : List Char) :
    (hexCharsToBytes l).length = l.length / 2 := by
  induction l using hexCharsToBytes.induct with
  | case1 => rfl
  | case2 => simp [hexCharsToBytes]
  | case3 a b rest ih => simp [hexCharsToBytes, ih]; omega

/-- Every byte decoded from hexadecimal digit characters is below 256. -/
theorem hexCharsToBytes_lt (l : List Char) (h : l.all isHexDigit = true) :
    ∀ b ∈ hexCharsToBytes l, b < 256 := by
  induction l using hexCharsToBytes.induct with
  | case1 => intro b hb; simp [hexCharsToBytes] at hb
  | case2 => intro b hb; simp [hexCharsToBytes] at hb
  | case3 a c rest ih =>
    simp only [List.all_cons, Bool.and_eq_true] at h
    intro b hb
    simp only [hexCharsToBytes, List.mem_cons] at hb
    rcases hb with hb | hb
    · have ha := hexVal_lt a
      have hc := hexVal_lt c
      omega
    · exact ih h.2.2 b hb

/-- All characters rendered from in-range bytes are lowercase hexadecimal. -/
theorem bytesToHexChars_all_lower (a : List Nat) (h : ∀ b ∈ a, b < 256) :
    (bytesToHexChars a).all isLowerHexDigit = true := by
  induction a with
  | nil => rfl
  | cons b rest ih =>
    have hb : b < 256 := h b (List.mem_cons_self b rest)
    simp only [bytesToHexChars, List.all_cons, Bool.and_eq_true]
    refine ⟨isLowerHexDigit_hexDigitChar _ (by omega),
      isLowerHexDigit_hexDigitChar _ (by omega), ?_⟩
    exact ih fun x hx => h x (List.mem_cons_of_mem b hx)

/-- Decoding inverts rendering on in-range bytes. -/
theorem hexCharsToBytes_bytesToHexChars (a : List Nat)
    (h : ∀ b ∈ a, b < 256) : hexCharsToBytes (bytesToHexChars a) = a := by
  induction a with
  | nil => rfl
  | cons b rest ih =>
    have hb : b < 256 := h b (List.mem_cons_self b rest)
    simp only [bytesToHexChars, hexCharsToBytes]
    rw [hexVal_hexDigitChar _ (by omega), hexVal_hexDigitChar _ (by omega),
      ih fun x hx => h x (List.mem_cons_of_mem b hx)]
    congr 1
    omega

/-- Folding the big-endian value over decoded bytes agrees with folding it
directly over the even-length digit string, for any accumulator. -/
theorem foldl_hexCharsToBytes (l : List Char) (h : l.length % 2 = 0) :
    ∀ acc : Nat,
      (hexCharsToBytes l).foldl (fun a x => 256 * a + x) acc =
        l.foldl (fun a c => 16 * a + hexVal c) acc := by
  induction l using hexCharsToBytes.induct with
  | case1 => intro acc; rfl
  | case2 => simp at h
  | case3 a b rest ih =>
    intro acc
    simp only [List.length_cons] at h
    simp only [hexCharsToBytes, List.foldl_cons]
    rw [ih (by omega)]
    congr 1
    ring

/-- The big-endian value of decoded bytes equals the big-endian value of the
even-length digit string. -/
theorem bytesToNatBE_hexCharsToBytes (l : List Char) (h : l.length % 2 = 0) :
    bytesToNatBE (hexCharsToBytes l) = hexToNatBE l :=
  foldl_hexCharsToBytes l h 0

/-- Left-padding with `0` characters does not change the big-endian value. -/
theorem hexToNatBE_replicate_zero (k : Nat) (d : List Char) :
    hexToNatBE (List.replicate k '0' ++ d) = hexToNatBE d := by
  induction k with
  | zero => rfl
  | succ n ih =>
    have h0 : hexVal '0' = 0 := by decide
    simp only [hexToNatBE] at ih ⊢
    simp only [List.replicate_succ, List.cons_append, List.foldl_cons, h0,
      Nat.mul_zero, Nat.add_zero]
    exact ih

/-! ## Lemmas about the relaxed parser -/

/-- Success of the relaxed parser is exactly: after prefix stripping, the
digit string is nonempty, at most 64 characters and all hexadecimal. -/
theorem parseRelaxed_isSome_iff (t : List Char) :
    (parseRelaxed t).isSome = true ↔
      (stripHexPfx t ≠ [] ∧ (stripHexPfx t).length ≤ 64 ∧
        (stripHexPfx t).all isHexDigit = true) := by
  unfold parseRelaxed
  split
  · next he =>
    simp only [Option.isSome_none, Bool.false_eq_true, false_iff]
    intro hc
    exact hc.1 (List.isEmpty_iff.mp he)
  split
  · next he hl =>
    simp only [Option.isSome_none, Bool.false_eq_true, false_iff]
    intro hc
    omega
  split
  · next he hl ha =>
    simp only [Option.isSome_some, true_iff]
    refine ⟨fun hc => he (by simp [hc]), by omega, ha⟩
  · next he hl ha =>
    simp only [Option.isSome_none, Bool.false_eq_true, false_iff]
    intro hc
    exact ha hc.2.2

/-- On success, the parsed bytes are those of the zero-padded digit string. -/
theorem parseRelaxed_eq_some (t : List Char) (a : List Nat)
    (h : parseRelaxed t = some a) :
    (stripHexPfx t ≠ [] ∧ (stripHexPfx t).length ≤ 64 ∧
      (stripHexPfx t).all isHexDigit = true) ∧
    a = hexCharsToBytes
      (List.replicate (64 - (stripHexPfx t).length) '0' ++ stripHexPfx t) := by
  unfold parseRelaxed at h
  split at h
  · exact absurd h (by simp)
  split at h
  · exact absurd h (by simp)
  split at h
  · next he hl ha =>
    refine ⟨⟨fun hc => he (by simp [hc]), by omega, ha⟩, ?_⟩
    exact (Option.some_injective _ h).symm
  · exact absurd h (by simp)

/-- A successfully parsed address is exactly 32 bytes. -/
theorem parseRelaxed_length (t : List Char) (a : List Nat)
    (h : parseRelaxed t = some a) : a.length = 32 := by
  obtain ⟨⟨hne, hl, _⟩, rfl⟩ := parseRelaxed_eq_some t a h
  rw [hexCharsToBytes_length]
  simp only [List.length_append, List.length_replicate]
  omega

/-- Every byte of a successfully parsed address is below 256. -/
theorem parseRelaxed_lt (t : List Char) (a : List Nat)
    (h : parseRelaxed t = some a) : ∀ b ∈ a, b < 256 := by
  obtain ⟨⟨_, _, ha⟩, rfl⟩ := parseRelaxed_eq_some t a h
  apply hexCharsToBytes_lt
  simp only [List.all_append, Bool.and_eq_true, ha, and_true]
  simp only [List.all_eq_true]
  intro c hc
  rw [List.eq_of_mem_replicate hc]
  decide

/-- The parsed address has, as a big-endian number, exactly the value of the
stripped digit string. -/
theorem parseRelaxed_value (t : List Char) (a : List Nat)
    (h : parseRelaxed t = some a) :
    bytesToNatBE a = hexToNatBE (stripHexPfx t) := by
  obtain ⟨⟨hne, hl, _⟩, rfl⟩ := parseRelaxed_eq_some t a h
  rw [bytesToNatBE_hexCharsToBytes, hexToNatBE_replicate_zero]
  simp only [List.length_append, List.length_replicate]
  omega

/-- Stripping the prefix of a long-form rendering yields the digit string. -/
theorem stripHexPfx_toLongString (a : List Nat) :
    stripHexPfx (toLongString a) = bytesToHexChars a := rfl

/-- The long-form rendering of a valid 32-byte address parses back to it. -/
theorem parseRelaxed_toLongString (a : List Nat) (h32 : a.length = 32)
    (hlt : ∀ b ∈ a, b < 256) : parseRelaxed (toLongString a) = some a := by
  have hlen : (bytesToHexChars a).length = 64 := by
    rw [bytesToHexChars_length, h32]
  have hhex : (bytesToHexChars a).all isHexDigit = true := by
    simp only [List.all_eq_true]
    intro c hc
    apply isHexDigit_of_isLowerHexDigit
    have := bytesToHexChars_all_lower a hlt
    simp only [List.all_eq_true] at this
    exact this c hc
  unfold parseRelaxed
  rw [stripHexPfx_toLongString]
  rw [if_neg (by simp [List.isEmpty_iff, ← List.length_eq_zero, hlen]),
    if_neg (by omega), if_pos hhex]
  rw [hlen]
  simp only [Nat.sub_self, List.replicate_zero, List.nil_append]
  rw [hexCharsToBytes_bytesToHexChars a hlt]

/-! ## Claims -/

/-- C2: `parseRelaxed` strips an optional `0x`/`0X` prefix and succeeds iff
the remaining string is all hexadecimal digits with length between 1 and 64
inclusive; it fails on the empty digit string, on over-64-digit strings and
on non-hex characters; on success the digit string is read as a big-endian
value left-padded with zero bytes to exactly 32 bytes. -/
theorem parseRelaxed_accepts_iff_hex_1_to_64 (t : List Char) :
    ((parseRelaxed t).isSome = true ↔
      (stripHexPfx t ≠ [] ∧ (stripHexPfx t).length ≤ 64 ∧
        (stripHexPfx t).all isHexDigit = true))
    ∧ ∀ a, parseRelaxed t = some a →
        a.length = 32 ∧ bytesToNatBE a = hexToNatBE (stripHexPfx t) :=
  ⟨parseRelaxed_isSome_iff t,
    fun a h => ⟨parseRelaxed_length t a h, parseRelaxed_value t a h⟩⟩

/-- Witness for C2: the failing inputs of the test suite fail, and `"0x3"`
parses to the 32-byte address of big-endian value 3. -/
theorem parseRelaxed_accepts_iff_hex_1_to_64_witness :
    parseRelaxed "0x".data = none ∧
    parseRelaxed "NotHex".data = none ∧
    parseRelaxed
      "0xF1234567812345678123456781234567812345678123456781234567812345678".data
      = none ∧
    ((List.replicate 31 0 ++ [3]).length = 32 ∧
      bytesToNatBE (List.replicate 31 0 ++ [3]) =
        hexToNatBE (stripHexPfx "0x3".data)) :=
  ⟨by decide, by decide, by decide,
    (parseRelaxed_accepts_iff_hex_1_to_64 "0x3".data).2 _ (by decide)⟩

/-- C3: `toShortString` emits `0x` followed by the last byte as minimal
lowercase hex exactly when the address is special (first 31 bytes zero, last
byte below 16), and otherwise emits `0x` followed by all 32 bytes as exactly
64 lowercase hex digits; a nonzero byte among the first 31 disqualifies the
short form. -/
theorem toShortString_special_rule (a : List Nat) (h32 : a.length = 32)
    (hlt : ∀ b ∈ a, b < 256) :
    (isSpecial a = true ↔ ((∀ b ∈ a.take 31, b = 0) ∧ a.getD 31 0 < 16))
    ∧ (isSpecial a = true →
        toShortString a = '0' :: 'x' :: byteToHexMinimal (a.getD 31 0))
    ∧ (isSpecial a = false →
        toShortString a = '0' :: 'x' :: bytesToHexChars a ∧
        (bytesToHexChars a).length = 64 ∧
        (bytesToHexChars a).all isLowerHexDigit = true)
    ∧ ((∃ b ∈ a.take 31, b ≠ 0) → toShortString a = toLongString a) := by
  have hiff : isSpecial a = true ↔
      ((∀ b ∈ a.take 31, b = 0) ∧ a.getD 31 0 < 16) := by
    simp [isSpecial, List.all_eq_true]
  refine ⟨hiff, fun hs => ?_, fun hs => ?_, fun hne => ?_⟩
  · unfold toShortString
    rw [if_pos hs]
  · unfold toShortString toLongString
    rw [if_neg (by simp [hs])]
    refine ⟨rfl, ?_, bytesToHexChars_all_lower a hlt⟩
    rw [bytesToHexChars_length, h32]
  · have hs : isSpecial a = false := by
      rcases hne with ⟨b, hb, hb0⟩
      rcases Bool.eq_false_or_eq_true (isSpecial a) with h | h
      · exact absurd ((hiff.mp h).1 b hb) hb0
      · exact h
    unfold toShortString
    rw [if_neg (by simp [hs])]

/-- Witness for C3: the all-zero address renders short as `0x0`, the address
with last byte `0x0f` renders short as `0xf`. -/
theorem toShortString_special_rule_witness :
    toShortString AccountZero =
      '0' :: 'x' :: byteToHexMinimal (AccountZero.getD 31 0) ∧
    toShortString (List.replicate 31 0 ++ [15]) =
      '0' :: 'x' :: byteToHexMinimal ((List.replicate 31 0 ++ [15]).getD 31 0) ∧
    toShortString AccountZero = "0x0".data ∧
    toShortString (List.replicate 31 0 ++ [15]) = "0xf".data :=
  ⟨(toShortString_special_rule AccountZero (by decide) (by decide)).2.1
      (by decide),
    (toShortString_special_rule (List.replicate 31 0 ++ [15]) (by decide)
      (by decide)).2.1 (by decide),
    by decide, by decide⟩

/-- C4: `toLongString` always emits `0x` followed by exactly 64 lowercase hex
digits, and `toShortString` equals `toLongString` on every non-special
address. -/
theorem toLongString_always_64_lower_hex (a : List Nat) (h32 : a.length = 32)
    (hlt : ∀ b ∈ a, b < 256) :
    toLongString a = '0' :: 'x' :: bytesToHexChars a
    ∧ (toLongString a).length = 66
    ∧ (bytesToHexChars a).length = 64
    ∧ (bytesToHexChars a).all isLowerHexDigit = true
    ∧ (isSpecial a = false → toShortString a = toLongString a) := by
  have hlen : (bytesToHexChars a).length = 64 := by
    rw [bytesToHexChars_length, h32]
  refine ⟨rfl, ?_, hlen, bytesToHexChars_all_lower a hlt, fun hs => ?_⟩
  · simp [toLongString, hlen]
  · unfold toShortString
    rw [if_neg (by simp [hs])]

/-- Witness for C4: the long rendering of the non-special address starting
with byte `0x12` from the test suite, at full width. -/
theorem toLongString_always_64_lower_hex_witness :
    toLongString (18 :: List.replicate 30 52 ++ [239]) =
      '0' :: 'x' :: bytesToHexChars (18 :: List.replicate 30 52 ++ [239]) ∧
    (toLongString (18 :: List.replicate 30 52 ++ [239])).length = 66 ∧
    toShortString (18 :: List.replicate 30 52 ++ [239]) =
      toLongString (18 :: List.replicate 30 52 ++ [239]) := by
  have h := toLongString_always_64_lower_hex
    (18 :: List.replicate 30 52 ++ [239]) (by decide) (by decide)
  exact ⟨h.1, h.2.1, h.2.2.2.2 (by decide)⟩

/-- C5: the binary canonical form of an address is exactly its 32 raw bytes
with no length prefix, and serialization and deserialization are mutually
inverse. -/
theorem address_bcs_roundtrip :
    (∀ b : List Nat, b.length = 32 →
      bcsSerialize b = b ∧ bcsDeserialize (bcsSerialize b) = some b)
    ∧ (∀ bytes a : List Nat,
        bcsDeserialize bytes = some a → bcsSerialize a = bytes) := by
  constructor
  · intro b h
    exact ⟨rfl, by simp [bcsSerialize, bcsDeserialize, h]⟩
  · intro bytes a h
    unfold bcsDeserialize at h
    split at h
    · injection h with h
      rw [← h]
      rfl
    · exact absurd h (by simp)

/-- Witness for C5: round-trip at the reserved address `0x1`. -/
theorem address_bcs_roundtrip_witness :
    bcsSerialize AccountOne = AccountOne ∧
    bcsDeserialize (bcsSerialize AccountOne) = some AccountOne :=
  address_bcs_roundtrip.1 AccountOne (by decide)

/-- C6: for every text accepted by `parseRelaxed`, formatting the parsed
address with `toLongString` and re-parsing yields the same address. -/
theorem parse_format_parse_roundtrip (t : List Char) (a : List Nat)
    (h : parseRelaxed t = some a) :
    parseRelaxed (toLongString a) = some a :=
  parseRelaxed_toLongString a (parseRelaxed_length t a h)
    (parseRelaxed_lt t a h)

/-- Witness for C6: round-trip through the long rendering at `"0x3"`. -/
theorem parse_format_parse_roundtrip_witness :
    parseRelaxed (toLongString AccountThree) = some AccountThree :=
  parse_format_parse_roundtrip "0x3".data AccountThree (by decide)

/-- C7: `fromAuthenticationKey` is the identity copy, and the all-zero
authentication key yields `AccountZero`. -/
theorem fromAuthenticationKey_identity :
    (∀ k : List Nat, k.length = 32 → fromAuthenticationKey k = k)
    ∧ fromAuthenticationKey (List.replicate 32 0) = AccountZero :=
  ⟨fun _ _ => rfl, rfl⟩

/-- Witness for C7: the identity copy at the all-zero key. -/
theorem fromAuthenticationKey_identity_witness :
    fromAuthenticationKey AccountZero = AccountZero :=
  fromAuthenticationKey_identity.1 AccountZero (by decide)

/-- C8: `objectAddressFromObject` equals the 256-bit digest of
`owner_bytes || object_bytes || derivation_scheme_tag`, produces exactly 32
bytes, and is pure and deterministic in its inputs. -/
theorem objectAddressFromObject_hash_spec (hash : List Nat → List Nat)
    (tag : Nat) (owner object : List Nat)
    (hlen : ∀ x, (hash x).length = 32) :
    objectAddressFromObject hash tag owner object =
      hash (owner ++ object ++ [tag])
    ∧ (objectAddressFromObject hash tag owner object).length = 32
    ∧ ∀ o2 b2, o2 = owner → b2 = object →
        objectAddressFromObject hash tag o2 b2 =
          objectAddressFromObject hash tag owner object :=
  ⟨rfl, hlen _, fun _ _ h1 h2 => by rw [h1, h2]⟩

/-- Witness for C8: with a concrete 32-byte digest stand-in and the scheme
tag 254, the derived address has exactly 32 bytes. -/
theorem objectAddressFromObject_hash_spec_witness :
    (objectAddressFromObject (fun _ => List.replicate 32 9) 254
      AccountOne AccountTwo).length = 32 :=
  (objectAddressFromObject_hash_spec (fun _ => List.replicate 32 9) 254
    AccountOne AccountTwo (fun _ => by simp)).2.1

/-- C9: JSON encoding of an address produces the `toShortString` text inside
a JSON string value, JSON decoding accepts exactly the texts `parseRelaxed`
accepts, unmarshalling the JSON string `"0x1"` yields `AccountOne`, and
re-marshalling yields the identical JSON text. -/
theorem json_short_string_parseRelaxed :
    (∀ a, jsonMarshal a = quoteChar :: (toShortString a ++ [quoteChar]))
    ∧ (∀ t, jsonUnmarshal (quoteChar :: (t ++ [quoteChar])) = parseRelaxed t)
    ∧ jsonUnmarshal (quoteChar :: ("0x1".data ++ [quoteChar])) =
        some AccountOne
    ∧ jsonMarshal AccountOne = quoteChar :: ("0x1".data ++ [quoteChar]) := by
  refine ⟨fun a => rfl, fun t => ?_, by decide, by decide⟩
  simp [jsonUnmarshal, List.getLast?_concat, List.dropLast_concat]

/-- C10: a successful parse writes the receiver to a value determined by the
input text alone, independent of the receiver's previous contents; reusing
one address variable across a sequence of parses leaves, after each
successful parse, exactly the address of that text. -/
theorem parseStringRelaxedInto_text_determined (r r2 : List Nat)
    (t : List Char) (a : List Nat) (h : parseRelaxed t = some a) :
    parseStringRelaxedInto r t = a
    ∧ parseStringRelaxedInto r t = parseStringRelaxedInto r2 t
    ∧ ∀ (init : List Nat) (ts : List (List Char)),
        foldParses init (ts ++ [t]) = a := by
  have h1 : ∀ s : List Nat, parseStringRelaxedInto s t = a := by
    intro s
    unfold parseStringRelaxedInto
    rw [h]
    rfl
  refine ⟨h1 r, by rw [h1 r, h1 r2], fun init ts => ?_⟩
  unfold foldParses
  simp only [List.foldl_append, List.foldl_cons, List.foldl_nil]
  exact h1 _

/-- Witness for C10: parsing `"0x2"` and then `"0x1"` into one variable that
started with garbage contents ends at exactly `AccountOne`. -/
theorem parseStringRelaxedInto_text_determined_witness :
    foldParses (List.replicate 32 7) (["0x2".data] ++ ["0x1".data]) =
      AccountOne :=
  (parseStringRelaxedInto_text_determined AccountZero AccountTwo "0x1".data
    AccountOne (by decide)).2.2 (List.replicate 32 7) ["0x2".data]

/-- C1: `signableBytes` is the fixed 32-byte domain-separation prefix
followed by the canonical encoding of the transaction, whose fields are
serialized in order: sender (32 raw bytes), sequence number (u64 LE), payload
(module address, length-prefixed module name, length-prefixed function name,
count-prefixed type-tag list, count-prefixed list of length-prefixed
pre-encoded arguments), max gas (u64 LE), gas unit price (u64 LE),
expiration timestamp (u64 LE) and chain id (one byte). -/
theorem signableBytes_domain_prefix_and_field_order (domainPfx : List Nat)
    (txn : RawTransaction) (hp : domainPfx.length = 32) :
    signableBytes domainPfx txn =
      domainPfx ++ (txn.sender
        ++ u64LE txn.sequenceNumber
        ++ (txn.payload.moduleAddress
          ++ (uleb128 txn.payload.moduleName.length ++ txn.payload.moduleName)
          ++ (uleb128 txn.payload.functionName.length
            ++ txn.payload.functionName)
          ++ (uleb128 txn.payload.argTypes.length
            ++ txn.payload.argTypes.flatMap (fun x => x))
          ++ (uleb128 txn.payload.args.length
            ++ txn.payload.args.flatMap (fun b => uleb128 b.length ++ b)))
        ++ u64LE txn.maxGasAmount
        ++ u64LE txn.gasUnitPrice
        ++ u64LE txn.expirationTimestampSeconds
        ++ [txn.chainId % 256])
    ∧ (signableBytes domainPfx txn).take 32 = domainPfx
    ∧ (signableBytes domainPfx txn).drop 32 = encodeRawTransaction txn := by
  refine ⟨?_, ?_, ?_⟩
  · simp only [signableBytes, encodeRawTransaction, encodeEntryFunction,
      encodeBytes, encodeRawSeq, encodeBytesSeq, List.append_assoc]
    rfl
  · exact List.take_left' hp
  · exact List.drop_left' hp

/-- Witness for C1: the CLI client's transfer transaction under a concrete
32-byte prefix splits into the prefix and the canonical encoding. -/
theorem signableBytes_domain_prefix_and_field_order_witness :
    (signableBytes rawTxnPfx goclientSendTxn).take 32 = rawTxnPfx ∧
    (signableBytes rawTxnPfx goclientSendTxn).drop 32 =
      encodeRawTransaction goclientSendTxn :=
  (signableBytes_domain_prefix_and_field_order rawTxnPfx goclientSendTxn
    (by decide)).2

end Aptos
